import Mathlib

/-!
Verification development for the tree-based learning repository
(`DecisionTreeClassifier.py`, `RandomForestClassifier.py`).

The shallow embedding below translates the source code into Lean:

* a dataset is a list of rows, each row a pair of a feature vector
  (`List ℚ`, modelling numeric feature values) and an integer class
  label (`ℕ`, the repository's classification labels are small
  non-negative integers usable as array indices);
* `numpy` index arrays become `List ℕ`;
* real-valued impurities (Shannon entropy with `log2`, mean squared
  error) live in `ℝ`;
* Python `None` / a raised exception become `Option` / `Except`.
-/

namespace DT

/-- Modelled from the spec: the file `Node.py` is not part of the sources
provided, only its callers are.  Per the spec's data model a `Node` is
exactly one of a decision split (feature index, threshold, two owned
children) or a leaf carrying a stored prediction value.  The leaf value is
an `Option ℚ` because `_most_common_label` can produce Python `None` for an
empty label vector, and that value is stored in the constructed leaf. -/
inductive Node where
  | leaf (value : Option ℚ)
  | node (feature : ℕ) (threshold : ℚ) (left right : Node)
deriving DecidableEq

/-- Embedding of `DecisionTreeClassifier._split` (lines 254-269):
`left = np.argwhere(feature <= threshold).flatten()` and
`right = np.argwhere(feature > threshold).flatten()`, i.e. the row
indices whose feature value is at most / strictly above the threshold,
in increasing index order. -/
def split (feature : List ℚ) (threshold : ℚ) : List ℕ × List ℕ :=
  ((List.range feature.length).filter (fun i => feature.getD i 0 ≤ threshold),
   (List.range feature.length).filter (fun i => ¬ feature.getD i 0 ≤ threshold))

/-- Label vector `y` of a dataset (the second components of the rows). -/
def labels (D : List (List ℚ × ℕ)) : List ℕ := D.map Prod.snd

/-- Feature column `X[:, j]` of a dataset. -/
def column (D : List (List ℚ × ℕ)) (j : ℕ) : List ℚ :=
  D.map (fun r => r.1.getD j 0)

/-- Row subsetting `X[idxs, :], y[idxs]` by an index list. -/
def selectRows (idxs : List ℕ) (D : List (List ℚ × ℕ)) : List (List ℚ × ℕ) :=
  idxs.map (fun i => D.getD i ([], 0))

/-- Embedding of `np.unique` on a rational-valued column: the distinct
values present, in ascending sorted order. -/
def uniqueSortedQ (l : List ℚ) : List ℚ :=
  l.dedup.insertionSort (· ≤ ·)

/-- Embedding of `np.unique` on an integer label vector. -/
def uniqueSortedN (l : List ℕ) : List ℕ :=
  l.dedup.insertionSort (· ≤ ·)

/-- Number of distinct labels, `len(np.unique(y))` (line 102). -/
def nUnique (l : List ℕ) : ℕ := l.dedup.length

/-- Largest label value, `np.max(y)` for a non-empty `y` (0 on empty). -/
def maxLabel (l : List ℕ) : ℕ := l.foldr max 0

/-- Embedding of `np.bincount(y)`: entry `v` counts the occurrences of the
value `v` in `y`; the array has `np.max(y) + 1` entries for non-empty `y`. -/
def bincount (y : List ℕ) : List ℕ :=
  (List.range (maxLabel y + 1)).map (fun v => y.count v)

/-- The select-the-strictly-better fold shared by `np.argmax` /
`scipy.stats.mode` / `_best_criteria`: scan the candidates in order,
keeping the current best and replacing it only when a candidate has a
strictly larger key, so the first-seen candidate wins ties. -/
def pickFirstMax {α : Type} {K : Type} [LinearOrder K] (key : α → K)
    (xs : List α) : Option α :=
  xs.foldl
    (fun best x =>
      match best with
      | none => some x
      | some b => if key b < key x then some x else some b)
    none

/-- Embedding of `np.argmax` on a list of counts: the first index holding
the maximum value (0 on an empty list, which `numpy` instead rejects;
every call site below passes a non-empty list). -/
def argmaxList (l : List ℕ) : ℕ :=
  (pickFirstMax (fun i => l.getD i 0) (List.range l.length)).getD 0

/-- Embedding of `_most_common_label` (lines 271-287): `None` for an empty
label vector (the log text mentions returning 0, but the code returns
`None`), otherwise `np.bincount(y).argmax()`. -/
def mostCommonLabel (y : List ℕ) : Option ℕ :=
  if y = [] then none else some (argmaxList (bincount y))

/-- Embedding of `np.mean` over the (rational-valued) targets of a leaf;
`none` models the undefined mean of an empty vector (numpy's `nan`). -/
def meanOpt (l : List ℚ) : Option ℚ :=
  if l = [] then none else some (l.sum / l.length)

/-- Tree-engine configuration (subset of the constructor arguments that
the growth algorithm reads; `max_features` is `None` in this embedding, so
every feature is considered and the seeded feature subsample is not
exercised, and `random_state`/`debug` only affect logging/subsampling). -/
structure TreeConfig where
  maxDepth : Option ℕ
  minSamplesSplit : ℕ
  minImpurityDecrease : ℚ
  isRegression : Bool

/-- Embedding of `_get_leaf_value` (lines 74-87): the mean of `y` in
regression mode, the most common label in classification mode. -/
def getLeafValue (cfg : TreeConfig) (ys : List ℕ) : Option ℚ :=
  if cfg.isRegression then meanOpt (ys.map (fun v => (Nat.cast v : ℚ)))
  else (mostCommonLabel ys).map (fun v => (Nat.cast v : ℚ))

/-- Embedding of `_entropy` (lines 238-252): Shannon entropy
`-Σ p·log2 p` over the class proportions of `y`. -/
noncomputable def entropy (y : List ℕ) : ℝ :=
  -((uniqueSortedN y).map
      (fun v => ((y.count v : ℝ) / (y.length : ℝ)) *
        Real.logb 2 ((y.count v : ℝ) / (y.length : ℝ)))).sum

/-- Mean of a label vector as a real number (`np.mean(y)`). -/
noncomputable def meanR (y : List ℕ) : ℝ :=
  ((y.map (fun v => (v : ℝ))).sum) / (y.length : ℝ)

/-- Embedding of `_mse(y, np.full(y.shape, np.mean(y)))` (lines 225-236),
the regression impurity: mean squared deviation from the mean. -/
noncomputable def mseLoss (y : List ℕ) : ℝ :=
  ((y.map (fun v => ((v : ℝ) - meanR y) ^ 2)).sum) / (y.length : ℝ)

/-- Embedding of `_information_gain` (lines 184-223): parent impurity
minus the sample-weighted child impurities; exactly `0` whenever the
induced split has an empty left or right side (lines 203-205). -/
noncomputable def informationGain (cfg : TreeConfig) (y : List ℕ)
    (feature : List ℚ) (threshold : ℚ) : ℝ :=
  let parentLoss := if cfg.isRegression then mseLoss y else entropy y
  let li := (split feature threshold).1
  let ri := (split feature threshold).2
  if li = [] ∨ ri = [] then 0
  else
    let yl := li.map (fun i => y.getD i 0)
    let yr := ri.map (fun i => y.getD i 0)
    let el := if cfg.isRegression then mseLoss yl else entropy yl
    let er := if cfg.isRegression then mseLoss yr else entropy yr
    parentLoss - ((li.length : ℝ) / (y.length : ℝ) * el +
      (ri.length : ℝ) / (y.length : ℝ) * er)

/-- Embedding of `_best_criteria` (lines 149-182): iterate the candidate
features in the given order and, per feature, the unique column values in
ascending order as thresholds; keep the running best
`(feature, threshold, gain)` triple, replacing it only on strictly greater
gain (`gain > best_gain`), so the first-seen candidate wins ties.  The
initial `best_gain = -np.inf` state, below which every finite gain lies,
is modelled by the `none` accumulator; a `none` result corresponds to the
Python return `(None, None, -inf)` (no candidate examined). -/
noncomputable def bestCriteria (cfg : TreeConfig) (D : List (List ℚ × ℕ))
    (featIdxs : List ℕ) : Option (ℕ × ℚ × ℝ) :=
  featIdxs.foldl
    (fun best idx =>
      (uniqueSortedQ (column D idx)).foldl
        (fun best t =>
          let g := informationGain cfg (labels D) (column D idx) t
          match best with
          | none => some (idx, t, g)
          | some (bi, bt, bg) =>
              if bg < g then some (idx, t, g) else some (bi, bt, bg))
        best)
    none

/-- Gain of a candidate (feature, threshold) pair on a dataset. -/
noncomputable def gainKey (cfg : TreeConfig) (D : List (List ℚ × ℕ)) :
    ℕ × ℚ → ℝ :=
  fun p => informationGain cfg (labels D) (column D p.1) p.2

/-- Candidate (feature, threshold) pairs in the iteration order of
`_best_criteria`: features in the given order, thresholds per feature in
ascending unique order. -/
def candidates (D : List (List ℚ × ℕ)) (featIdxs : List ℕ) : List (ℕ × ℚ) :=
  featIdxs.flatMap (fun fi => (uniqueSortedQ (column D fi)).map (fun t => (fi, t)))

/-- Embedding of `_grow_tree` (lines 89-147).  The stopping test copies
the Python line `(depth >= self.max_depth) or (n_labels == 1) or
(n_samples < self.min_samples_split)`: with `max_depth = None` the very
first comparison `depth >= None` raises `TypeError` in Python 3, modelled
by `Except.error`; with an integer `max_depth` the disjunction is
evaluated as written.  Then: consider all features (the `max_features is
None` branch of lines 116-121), search the best criteria, emit a leaf if
the best gain is below `min_impurity_decrease` (with the `-inf` no-candidate
state always below it), split, emit a leaf if either side is empty, and
otherwise recurse on the two sides at `depth + 1`. -/
noncomputable def growTree (cfg : TreeConfig) (D : List (List ℚ × ℕ))
    (depth : ℕ) : Except String Node :=
  match cfg.maxDepth with
  | none => .error "TypeError: not supported between instances of int and NoneType"
  | some d =>
    if depth ≥ d ∨ nUnique (labels D) = 1 ∨ D.length < cfg.minSamplesSplit then
      .ok (.leaf (getLeafValue cfg (labels D)))
    else
      match bestCriteria cfg D (List.range (D.headD ([], 0)).1.length) with
      | none => .ok (.leaf (getLeafValue cfg (labels D)))
      | some (bf, bt, bg) =>
        if bg < (cfg.minImpurityDecrease : ℝ) then
          .ok (.leaf (getLeafValue cfg (labels D)))
        else
          if h : (split (column D bf) bt).1 = [] ∨ (split (column D bf) bt).2 = [] then
            .ok (.leaf (getLeafValue cfg (labels D)))
          else do
            let L ← growTree cfg (selectRows (split (column D bf) bt).1 D) (depth + 1)
            let R ← growTree cfg (selectRows (split (column D bf) bt).2 D) (depth + 1)
            return .node bf bt L R
termination_by D.length
decreasing_by
  · have h2 : (split (column D bf) bt).2 ≠ [] := by tauto
    have hpos : 0 < (split (column D bf) bt).2.length := List.length_pos.mpr h2
    have hsum : (split (column D bf) bt).1.length +
        (split (column D bf) bt).2.length = (column D bf).length := by
      classical
      have hh := List.length_eq_length_filter_add
        (l := List.range (column D bf).length)
        (fun i => decide ((column D bf).getD i 0 ≤ bt))
      simp only [split]
      simp only [decide_not] at hh ⊢
      simpa using hh.symm
    have hc : (column D bf).length = D.length := by simp [column]
    simp only [selectRows, List.length_map]
    omega
  · have h1 : (split (column D bf) bt).1 ≠ [] := by tauto
    have hpos : 0 < (split (column D bf) bt).1.length := List.length_pos.mpr h1
    have hsum : (split (column D bf) bt).1.length +
        (split (column D bf) bt).2.length = (column D bf).length := by
      classical
      have hh := List.length_eq_length_filter_add
        (l := List.range (column D bf).length)
        (fun i => decide ((column D bf).getD i 0 ≤ bt))
      simp only [split]
      simp only [decide_not] at hh ⊢
      simpa using hh.symm
    have hc : (column D bf).length = D.length := by simp [column]
    simp only [selectRows, List.length_map]
    omega

/-- Embedding of `fit` (lines 289-299): grow the tree from depth 0 and
store it as the root. -/
noncomputable def fit (cfg : TreeConfig) (D : List (List ℚ × ℕ)) :
    Except String Node :=
  growTree cfg D 0

/-- Embedding of `_traverse_tree` (lines 316-341): at a leaf return its
stored value, otherwise go left when `x[feature] <= threshold`, else
right. -/
def traverseTree (node : Node) (x : List ℚ) : Option ℚ :=
  match node with
  | .leaf v => v
  | .node f t l r => if x.getD f 0 ≤ t then traverseTree l x else traverseTree r x

end DT

namespace RF

open DT

/-- Embedding of `scipy.stats.mode` on one sample's column of per-tree
predictions: the most frequent value; when several values are tied for
the highest frequency, the smallest one is returned (scipy's documented
tie rule).  Realised by scanning the distinct values in ascending order
and keeping the first one whose count is strictly larger. -/
def modeQ (l : List ℚ) : ℚ :=
  (pickFirstMax (fun c => l.count c) (uniqueSortedQ l)).getD 0

/-- Embedding of `RandomForestClassifier.predict` (lines 210-228): build
the `(n_trees × n_samples)` prediction matrix by running every tree over
`X`, then take the per-sample mode.  A tree prediction of Python `None`
(a valueless leaf) or an empty forest makes the scipy aggregation raise,
modelled by `none`. -/
def ensemblePredict (trees : List Node) (X : List (List ℚ)) :
    Option (List ℚ) :=
  if trees = [] then none
  else X.mapM (fun row => (trees.mapM (fun t => traverseTree t row)).map modeQ)

/-- Result of one training round as collected from the parallel workers
(lines 111-155): the fitted tree, its OOB predictions and the OOB row
indices they belong to. -/
structure RoundResult where
  tree : Node
  oobPred : List ℕ
  oobIndices : List ℕ
deriving DecidableEq

/-- One vote increment `self.oob_votes[idx, prediction] += 1` on the vote
accumulator, modelled as a total tally function. -/
def bump (v : ℕ → ℕ → ℕ) (p : ℕ × ℕ) : ℕ → ℕ → ℕ :=
  fun i j => if i = p.1 ∧ j = p.2 then v i j + 1 else v i j

/-- The vote-recording loop `for idx, prediction in zip(oob_indices,
oob_pred)` of lines 205-206. -/
def addVotes (v : ℕ → ℕ → ℕ) (pairs : List (ℕ × ℕ)) : ℕ → ℕ → ℕ :=
  pairs.foldl bump v

/-- Vote contribution of one round result. -/
def voteStep (v : ℕ → ℕ → ℕ) (r : RoundResult) : ℕ → ℕ → ℕ :=
  addVotes v (r.oobIndices.zip r.oobPred)

/-- Mutable state of a `RandomForestClassifier` instance that `fit`
touches: the list of fitted trees, the OOB vote accumulator and the OOB
score. -/
structure RFState where
  trees : List Node
  votes : ℕ → ℕ → ℕ
  oobScore : Option ℚ

/-- State created by `__init__` (lines 43-76): no trees, no votes, no
score. -/
def rfInit : RFState :=
  { trees := [], votes := fun _ _ => 0, oobScore := none }

/-- Row `i` of the vote accumulator, over the `max(y)+1` allocated class
columns (the allocation of line 193). -/
def votesRow (v : ℕ → ℕ → ℕ) (nCols i : ℕ) : List ℕ :=
  (List.range nCols).map (v i)

/-- Embedding of `_calculate_oob_score` (lines 157-177): mask the samples
whose vote row has a positive sum; if none, leave the score unset
(`none`); otherwise predict `np.argmax` per masked row and return the mean
of the agreement indicator against the true labels. -/
def calculateOobScore (v : ℕ → ℕ → ℕ) (y : List ℕ) : Option ℚ :=
  let nC := maxLabel y + 1
  let voted := (List.range y.length).filter
    (fun i => 0 < (votesRow v nC i).sum)
  if voted = [] then none
  else some
    (((voted.filter (fun i => argmaxList (votesRow v nC i) = y.getD i 0)).length : ℚ)
      / (voted.length : ℚ))

/-- Specification-side predicate: `k` is the label with the most
accumulated votes in `row`, ties broken by lowest label id — i.e. the
least index of `row` attaining its maximum. -/
def IsFirstMax (row : List ℕ) (k : ℕ) : Prop :=
  k < row.length ∧ (∀ j, j < row.length → row.getD j 0 ≤ row.getD k 0) ∧
    (∀ j, j < k → row.getD j 0 < row.getD k 0)

instance (row : List ℕ) (k : ℕ) : Decidable (IsFirstMax row k) := by
  unfold IsFirstMax; infer_instance

/-- Following the spec's words (for comparison with `calculateOobScore`):
the OOB score is the accuracy, over exactly the training samples that
received at least one OOB vote, of the per-sample label with the most
accumulated votes (ties broken by lowest label id); if no sample ever
receives an OOB vote, no score is produced. -/
def specOobScore (v : ℕ → ℕ → ℕ) (y : List ℕ) : Option ℚ :=
  let nC := maxLabel y + 1
  let voted := (List.range y.length).filter
    (fun i => 0 < (votesRow v nC i).sum)
  if voted = [] then none
  else some
    (((voted.filter (fun i => IsFirstMax (votesRow v nC i) (y.getD i 0))).length : ℚ)
      / (voted.length : ℚ))

/-- Embedding of `RandomForestClassifier.fit` (lines 179-208) from the
point where the per-round results have been computed by the worker pool:
re-zero the OOB vote accumulator (line 193), fold the collected round
results in order — appending each fitted tree to `self.trees` and adding
its OOB votes (lines 202-206) — and then run `_calculate_oob_score`,
which overwrites the stored score only when at least one sample received
a vote (lines 170-175). -/
def rfFit (st : RFState) (y : List ℕ) (results : List RoundResult) :
    RFState :=
  let folded := results.foldl
    (fun acc r => (acc.1 ++ [r.tree], addVotes acc.2 (r.oobIndices.zip r.oobPred)))
    (st.trees, fun _ _ => 0)
  { trees := folded.1
    votes := folded.2
    oobScore :=
      match calculateOobScore folded.2 y with
      | some s => some s
      | none => st.oobScore }

/-- Ensemble prediction reads `self.trees` (line 225). -/
def rfPredict (st : RFState) (X : List (List ℚ)) : Option (List ℚ) :=
  ensemblePredict st.trees X

end RF

namespace DT

/-! Basic facts about `split`. -/

theorem split_length_sum (f : List ℚ) (t : ℚ) :
    (split f t).1.length + (split f t).2.length = f.length := by
  classical
  have h := List.length_eq_length_filter_add
    (l := List.range f.length) (fun i => decide (f.getD i 0 ≤ t))
  simp only [split]
  simp only [decide_not] at h ⊢
  simpa using h.symm

theorem mem_split_left (f : List ℚ) (t : ℚ) (i : ℕ) :
    i ∈ (split f t).1 ↔ i < f.length ∧ f.getD i 0 ≤ t := by
  simp [split, List.mem_filter]

theorem mem_split_right (f : List ℚ) (t : ℚ) (i : ℕ) :
    i ∈ (split f t).2 ↔ i < f.length ∧ t < f.getD i 0 := by
  simp [split, List.mem_filter, not_le]

/-! The first-strict-maximum fold: decomposition lemma shared by the
embeddings of `np.argmax`, `scipy.stats.mode` and `_best_criteria`. -/

theorem pickFirstMax_go {α K : Type} [LinearOrder K] (key : α → K) :
    ∀ (xs : List α) (b0 : α),
      ∃ b, (xs.foldl
          (fun best x =>
            match best with
            | none => some x
            | some b => if key b < key x then some x else some b)
          (some b0)) = some b ∧
        ((b = b0 ∧ ∀ z ∈ xs, key z ≤ key b0) ∨
         (∃ l1 l2, xs = l1 ++ b :: l2 ∧ key b0 < key b ∧
            (∀ z ∈ l1, key z < key b) ∧ (∀ z ∈ l2, key z ≤ key b))) := by
  intro xs
  induction xs with
  | nil => intro b0; exact ⟨b0, rfl, Or.inl ⟨rfl, by simp⟩⟩
  | cons x rest ih =>
    intro b0
    by_cases hlt : key b0 < key x
    · obtain ⟨b, hb, hcase⟩ := ih x
      refine ⟨b, ?_, ?_⟩
      · simpa [List.foldl_cons, if_pos hlt] using hb
      · rcases hcase with ⟨rfl, hall⟩ | ⟨l1, l2, heq, hxb, h1, h2⟩
        · exact Or.inr ⟨[], rest, by simp, hlt, by simp, hall⟩
        · refine Or.inr ⟨x :: l1, l2, by simp [heq], lt_trans hlt hxb, ?_, h2⟩
          intro z hz
          rcases List.mem_cons.mp hz with rfl | hz
          · exact hxb
          · exact h1 z hz
    · obtain ⟨b, hb, hcase⟩ := ih b0
      refine ⟨b, ?_, ?_⟩
      · simpa [List.foldl_cons, if_neg hlt] using hb
      · rcases hcase with ⟨rfl, hall⟩ | ⟨l1, l2, heq, hb0b, h1, h2⟩
        · refine Or.inl ⟨rfl, ?_⟩
          intro z hz
          rcases List.mem_cons.mp hz with rfl | hz
          · exact le_of_not_lt hlt
          · exact hall z hz
        · refine Or.inr ⟨x :: l1, l2, by simp [heq], hb0b, ?_, h2⟩
          intro z hz
          rcases List.mem_cons.mp hz with rfl | hz
          · exact lt_of_le_of_lt (le_of_not_lt hlt) hb0b
          · exact h1 z hz

/-- Characterisation of a non-empty first-strict-maximum scan: it returns
an element of the list, every element strictly before it keys strictly
lower, and every element after it keys no higher. -/
theorem pickFirstMax_spec {α K : Type} [LinearOrder K] (key : α → K)
    (xs : List α) (hne : xs ≠ []) :
    ∃ b l1 l2, pickFirstMax key xs = some b ∧ xs = l1 ++ b :: l2 ∧
      (∀ z ∈ l1, key z < key b) ∧ (∀ z ∈ l2, key z ≤ key b) := by
  match xs, hne with
  | x :: rest, _ =>
    obtain ⟨b, hb, hcase⟩ := pickFirstMax_go key rest x
    have hpick : pickFirstMax key (x :: rest) = some b := by
      simpa [pickFirstMax, List.foldl_cons] using hb
    rcases hcase with ⟨rfl, hall⟩ | ⟨l1, l2, heq, hxb, h1, h2⟩
    · exact ⟨b, [], rest, hpick, by simp, by simp, hall⟩
    · refine ⟨b, x :: l1, l2, hpick, by simp [heq], ?_, h2⟩
      intro z hz
      rcases List.mem_cons.mp hz with rfl | hz
      · exact hxb
      · exact h1 z hz

/-- Every scanned element keys no higher than the returned one. -/
theorem pickFirstMax_max {α K : Type} [LinearOrder K] (key : α → K)
    (xs : List α) (b : α) (h : pickFirstMax key xs = some b) :
    ∀ z ∈ xs, key z ≤ key b := by
  have hne : xs ≠ [] := by
    rintro rfl
    simp [pickFirstMax] at h
  obtain ⟨b', l1, l2, hpick, heq, h1, h2⟩ := pickFirstMax_spec key xs hne
  rw [h] at hpick
  obtain rfl : b' = b := by simpa using hpick.symm
  intro z hz
  rw [heq] at hz
  rcases List.mem_append.mp hz with hz | hz
  · exact le_of_lt (h1 z hz)
  · rcases List.mem_cons.mp hz with rfl | hz
    · exact le_rfl
    · exact h2 z hz

/-- Characterisation of `np.argmax` on a non-empty list: it is a valid
index, no entry exceeds the entry there, and every strictly earlier entry
is strictly smaller (first occurrence of the maximum, i.e. ties break to
the lowest index). -/
theorem argmaxList_spec (l : List ℕ) (hne : l ≠ []) :
    argmaxList l < l.length ∧
    (∀ j, j < l.length → l.getD j 0 ≤ l.getD (argmaxList l) 0) ∧
    (∀ j, j < argmaxList l → l.getD j 0 < l.getD (argmaxList l) 0) := by
  have hlen : 0 < l.length := List.length_pos.mpr hne
  have hr : List.range l.length ≠ [] := by
    intro hcon
    rw [List.range_eq_nil] at hcon
    omega
  obtain ⟨b, l1, l2, hpick, heq, h1, h2⟩ :=
    pickFirstMax_spec (fun i => l.getD i 0) (List.range l.length) hr
  have hargs : argmaxList l = b := by
    unfold argmaxList
    rw [hpick]
    rfl
  have hlens : l1.length + (1 + l2.length) = l.length := by
    have := congrArg List.length heq
    simpa [List.length_append, Nat.add_comm, Nat.add_assoc, Nat.add_left_comm] using this.symm
  have hl1len : l1.length < l.length := by omega
  have hb : b = l1.length := by
    have hget : (l1 ++ b :: l2)[l1.length]? = some b := by
      rw [List.getElem?_append_right (le_refl _)]
      simp
    have hget2 : (List.range l.length)[l1.length]? = some l1.length := by
      rw [List.getElem?_range hl1len]
    rw [heq, hget] at hget2
    exact Option.some_inj.mp hget2
  have hl1 : l1 = List.range l1.length := by
    have ht := congrArg (List.take l1.length) heq
    rw [List.take_left] at ht
    have ht2 : List.take l1.length (List.range l.length) = List.range l1.length := by
      rw [List.take_range, Nat.min_eq_left (le_of_lt hl1len)]
    exact ht.symm.trans ht2
  refine ⟨by omega, ?_, ?_⟩
  · intro j hj
    have hjmem : j ∈ List.range l.length := List.mem_range.mpr hj
    rw [heq] at hjmem
    rw [hargs]
    rcases List.mem_append.mp hjmem with hjm | hjm
    · exact le_of_lt (h1 j hjm)
    · rcases List.mem_cons.mp hjm with rfl | hjm
      · exact le_rfl
      · exact h2 j hjm
  · intro j hj
    rw [hargs] at hj ⊢
    have hjmem : j ∈ l1 := by
      rw [hl1]
      exact List.mem_range.mpr (by omega)
    exact h1 j hjmem

/-! Facts about `bincount` and `mostCommonLabel`. -/

theorem maxLabel_ge (y : List ℕ) : ∀ v ∈ y, v ≤ maxLabel y := by
  induction y with
  | nil => simp
  | cons a rest ih =>
    intro v hv
    rcases List.mem_cons.mp hv with rfl | hv
    · simp [maxLabel, List.foldr_cons]
    · calc v ≤ rest.foldr max 0 := ih v hv
        _ ≤ maxLabel (a :: rest) := by simp [maxLabel, List.foldr_cons]

theorem count_eq_zero_of_gt_max (y : List ℕ) (v : ℕ) (hv : maxLabel y < v) :
    y.count v = 0 := by
  rw [List.count_eq_zero]
  intro hmem
  exact absurd (maxLabel_ge y v hmem) (not_le.mpr hv)

theorem bincount_length (y : List ℕ) : (bincount y).length = maxLabel y + 1 := by
  simp [bincount]

theorem bincount_getD (y : List ℕ) (v : ℕ) (hv : v < maxLabel y + 1) :
    (bincount y).getD v 0 = y.count v := by
  simp only [bincount, List.getD_eq_getElem?_getD, List.getElem?_map,
    List.getElem?_range hv, Option.map_some]
  rfl

/-- Characterisation of `_most_common_label` on a non-empty label vector:
it returns a label occurring in `y` whose occurrence count no label
exceeds, and among equally frequent labels it is the lowest one. -/
theorem mostCommonLabel_spec (y : List ℕ) (hne : y ≠ []) :
    ∃ lab, mostCommonLabel y = some lab ∧ lab ∈ y ∧
      (∀ m, y.count m ≤ y.count lab) ∧
      (∀ m, y.count m = y.count lab → lab ≤ m) := by
  have hbne : bincount y ≠ [] := by
    intro hcon
    have := bincount_length y
    rw [hcon] at this
    simp at this
  obtain ⟨hlt, hmax, hfirst⟩ := argmaxList_spec (bincount y) hbne
  set lab := argmaxList (bincount y) with hlab
  have hlen : (bincount y).length = maxLabel y + 1 := bincount_length y
  have hcnt : ∀ j, j < maxLabel y + 1 → y.count j ≤ y.count lab := by
    intro j hj
    have := hmax j (by omega)
    rwa [bincount_getD y j hj, bincount_getD y lab (by omega)] at this
  have hcall : ∀ m, y.count m ≤ y.count lab := by
    intro m
    by_cases hm : m < maxLabel y + 1
    · exact hcnt m hm
    · rw [count_eq_zero_of_gt_max y m (by omega)]
      exact Nat.zero_le _
  have hmem : lab ∈ y := by
    match y, hne with
    | a :: rest, _ =>
      have hha : (a :: rest).count a ≥ 1 := by
        have : a ∈ a :: rest := List.mem_cons_self a rest
        exact List.count_pos_iff.mpr this
      have : 1 ≤ (a :: rest).count lab := le_trans hha (hcall a)
      exact List.count_pos_iff.mp (by omega)
  refine ⟨lab, by simp [mostCommonLabel, hne], hmem, hcall, ?_⟩
  intro m hm
  by_contra hcon
  push_neg at hcon
  have hstrict := hfirst m hcon
  rw [bincount_getD y m (by omega), bincount_getD y lab (by omega)] at hstrict
  omega

/-- A non-empty constant label vector dedups to the singleton. -/
theorem dedup_const (c : ℕ) (l : List ℕ) (hne : l ≠ [])
    (hc : ∀ x ∈ l, x = c) : l.dedup = [c] := by
  induction l with
  | nil => exact absurd rfl hne
  | cons a rest ih =>
    have ha : a = c := hc a (List.mem_cons_self a rest)
    by_cases hr : rest = []
    · subst hr
      simp [List.dedup, ha]
    · have hrest : rest.dedup = [c] :=
        ih hr (fun x hx => hc x (List.mem_cons_of_mem a hx))
      have hmem : a ∈ rest := by
        match rest, hr with
        | b :: rest2, _ =>
          have hb : b = c := hc b (by simp)
          rw [ha, ← hb]
          exact List.mem_cons_self b rest2
      rw [List.dedup_cons_of_mem hmem, hrest]

/-- The most common label of a non-empty constant vector is that value. -/
theorem mostCommonLabel_const (c : ℕ) (l : List ℕ) (hne : l ≠ [])
    (hc : ∀ x ∈ l, x = c) : mostCommonLabel l = some c := by
  obtain ⟨lab, hml, hmem, _, _⟩ := mostCommonLabel_spec l hne
  rw [hml, hc lab hmem]

end DT

namespace DT

/-- C2: for every feature column `f` and every threshold `t`,
`_split(f, t)` returns index lists (left, right) such that every index in
left satisfies `f[idx] ≤ t`, every index in right satisfies `f[idx] > t`,
left and right are disjoint, and their union is the set of all row
indices of `f`. -/
theorem claim_C2_split_partition (f : List ℚ) (t : ℚ) :
    (∀ i ∈ (split f t).1, f.getD i 0 ≤ t) ∧
    (∀ i ∈ (split f t).2, t < f.getD i 0) ∧
    (∀ i, ¬(i ∈ (split f t).1 ∧ i ∈ (split f t).2)) ∧
    (∀ i, (i ∈ (split f t).1 ∨ i ∈ (split f t).2) ↔ i < f.length) := by
  refine ⟨?_, ?_, ?_, ?_⟩
  · intro i hi
    exact ((mem_split_left f t i).mp hi).2
  · intro i hi
    exact ((mem_split_right f t i).mp hi).2
  · intro i ⟨hl, hr⟩
    exact absurd ((mem_split_left f t i).mp hl).2
      (not_le.mpr ((mem_split_right f t i).mp hr).2)
  · intro i
    constructor
    · intro h
      rcases h with h | h
      · exact ((mem_split_left f t i).mp h).1
      · exact ((mem_split_right f t i).mp h).1
    · intro h
      by_cases hle : f.getD i 0 ≤ t
      · exact Or.inl ((mem_split_left f t i).mpr ⟨h, hle⟩)
      · exact Or.inr ((mem_split_right f t i).mpr ⟨h, not_le.mp hle⟩)

/-- Witness for C2 at the concrete column `[1, 3, 2]`, threshold `2`. -/
theorem claim_C2_witness :
    (∀ i ∈ (split [1, 3, 2] 2).1, ([1, 3, 2] : List ℚ).getD i 0 ≤ 2) ∧
    (∀ i ∈ (split [1, 3, 2] 2).2, (2 : ℚ) < ([1, 3, 2] : List ℚ).getD i 0) ∧
    (∀ i, ¬(i ∈ (split [1, 3, 2] 2).1 ∧ i ∈ (split ([1, 3, 2] : List ℚ) 2).2)) ∧
    (∀ i, (i ∈ (split [1, 3, 2] 2).1 ∨ i ∈ (split ([1, 3, 2] : List ℚ) 2).2) ↔
      i < ([1, 3, 2] : List ℚ).length) :=
  claim_C2_split_partition [1, 3, 2] 2

/-- C8: querying the most-common-label of an empty label vector yields the
explicit absent value `none` — not an exception and not a silent default
of label 0 (the code's warning message speaks of returning 0, but the
function returns Python `None`). -/
theorem claim_C8_empty_labels_no_prediction :
    mostCommonLabel ([] : List ℕ) = none ∧
    mostCommonLabel ([] : List ℕ) ≠ some 0 := by
  constructor
  · rfl
  · intro h
    simp [mostCommonLabel] at h

end DT

namespace DT

/-- C1 (code bug): with `max_depth` unset (`None`, the constructor
default), the very first stopping-test comparison `depth >= self.max_depth`
is an `int >= None` comparison, which raises `TypeError` in Python 3 at
every node — so `fit` never completes and never reaches the purity or
minimum-samples tests, for every dataset and every depth, contradicting
the class docstring ("If None, the tree will grow until all leaves are
pure or until it reaches the minimum samples split"). -/
theorem claim_C1_unbounded_depth_fit_raises (ms : ℕ) (mid : ℚ) (reg : Bool)
    (D : List (List ℚ × ℕ)) (depth : ℕ) :
    growTree ⟨none, ms, mid, reg⟩ D depth =
      .error "TypeError: not supported between instances of int and NoneType" := by
  rw [growTree]

/-- Counterexample for C6 as stated: on the pure-label dataset
`X = [[0], [1]]`, `y = [1, 1]` with the constructor-default configuration
(`max_depth=None`, `min_samples_split=2`, classification), `fit` raises
instead of producing the single leaf with value 1. -/
theorem claim_C6_counterexample :
    growTree ⟨none, 2, 0, false⟩ [([0], 1), ([1], 1)] 0 =
      .error "TypeError: not supported between instances of int and NoneType" ∧
    growTree ⟨none, 2, 0, false⟩ [([0], 1), ([1], 1)] 0 ≠
      .ok (.leaf (some 1)) := by
  constructor
  · rw [growTree]
  · rw [growTree]
    intro h
    exact Except.noConfusion h


/-- The mean of a non-empty constant list is that constant. -/
theorem meanOpt_const (c : ℚ) (l : List ℚ) (hne : l ≠ [])
    (hc : ∀ x ∈ l, x = c) : meanOpt l = some c := by
  have hlpos : 0 < l.length := List.length_pos.mpr hne
  have hsum : l.sum = l.length • c := List.sum_eq_card_nsmul l c hc
  rw [meanOpt, if_neg hne]
  congr 1
  rw [hsum, nsmul_eq_mul]
  have hl0 : (l.length : ℚ) ≠ 0 := by
    exact_mod_cast hlpos.ne'
  field_simp

/-- Stopping step of `_grow_tree` with an integer `max_depth`: when the
stopping disjunction holds, the result is a leaf with `_get_leaf_value`. -/
theorem growTree_stop (d ms : ℕ) (mid : ℚ) (reg : Bool)
    (D : List (List ℚ × ℕ)) (depth : ℕ)
    (h : depth ≥ d ∨ nUnique (labels D) = 1 ∨ D.length < ms) :
    growTree ⟨some d, ms, mid, reg⟩ D depth =
      .ok (.leaf (getLeafValue ⟨some d, ms, mid, reg⟩ (labels D))) := by
  rw [growTree]
  exact if_pos h

/-- C6 (amended): for every dataset whose labels are all identical and
every engine whose `max_depth` is an integer, `fit` produces a single
leaf whose stored value is the common label (classification) or the mean
of the constant target (regression) — which is again that common value. -/
theorem claim_C6_pure_labels_single_leaf (d ms : ℕ) (mid : ℚ) (reg : Bool)
    (c : ℕ) (D : List (List ℚ × ℕ)) (hne : D ≠ [])
    (hc : ∀ r ∈ D, r.2 = c) :
    growTree ⟨some d, ms, mid, reg⟩ D 0 = .ok (.leaf (some (c : ℚ))) := by
  have hlblne : labels D ≠ [] := by
    simp only [labels, ne_eq, List.map_eq_nil_iff]
    exact hne
  have hlblc : ∀ x ∈ labels D, x = c := by
    intro x hx
    obtain ⟨r, hr, rfl⟩ := List.mem_map.mp hx
    exact hc r hr
  have h1 : nUnique (labels D) = 1 := by
    rw [nUnique, dedup_const c (labels D) hlblne hlblc]
    rfl
  rw [growTree_stop d ms mid reg D 0 (Or.inr (Or.inl h1))]
  cases reg with
  | false =>
    have hgl : getLeafValue ⟨some d, ms, mid, false⟩ (labels D) =
        (mostCommonLabel (labels D)).map (fun v => (Nat.cast v : ℚ)) := rfl
    rw [hgl, mostCommonLabel_const c (labels D) hlblne hlblc]
    rfl
  | true =>
    have hgl : getLeafValue ⟨some d, ms, mid, true⟩ (labels D) =
        meanOpt ((labels D).map (fun v => (Nat.cast v : ℚ))) := rfl
    have hmapne : (labels D).map (fun v => (Nat.cast v : ℚ)) ≠ [] := by
      simp only [ne_eq, List.map_eq_nil_iff]
      exact hlblne
    have hmapc : ∀ x ∈ (labels D).map (fun v => (Nat.cast v : ℚ)), x = (c : ℚ) := by
      intro x hx
      obtain ⟨v, hv, rfl⟩ := List.mem_map.mp hx
      rw [hlblc v hv]
    rw [hgl, meanOpt_const (c : ℚ) _ hmapne hmapc]

/-- Witness for the amended C6: a concrete two-sample constant-label
dataset, in classification and in regression mode. -/
theorem claim_C6_witness :
    (([([0], 3), ([1], 3)] : List (List ℚ × ℕ)) ≠ [] ∧
      ∀ r ∈ ([([0], 3), ([1], 3)] : List (List ℚ × ℕ)), r.2 = 3) ∧
    growTree ⟨some 5, 2, 0, false⟩ [([0], 3), ([1], 3)] 0 =
      .ok (.leaf (some 3)) ∧
    growTree ⟨some 5, 2, 0, true⟩ [([0], 3), ([1], 3)] 0 =
      .ok (.leaf (some 3)) := by
  refine ⟨⟨by simp, by simp⟩, ?_, ?_⟩
  · exact claim_C6_pure_labels_single_leaf 5 2 0 false 3 _ (by simp) (by simp)
  · exact claim_C6_pure_labels_single_leaf 5 2 0 true 3 _ (by simp) (by simp)

end DT

namespace DT

/-- C7: for every non-empty label vector, the leaf value emitted on
stopping is the mean of `y` in regression mode (characterised by
`m · |y| = Σ y`), and in classification mode the most frequent label with
ties broken by the lowest label id (the argmax over the bincount array). -/
theorem claim_C7_leaf_value_rule (d ms : ℕ) (mid : ℚ) (y : List ℕ)
    (hne : y ≠ []) :
    (∃ m, getLeafValue ⟨some d, ms, mid, true⟩ y = some m ∧
      m * (y.length : ℚ) = (y.map (fun v => (Nat.cast v : ℚ))).sum) ∧
    (∃ lab : ℕ, getLeafValue ⟨some d, ms, mid, false⟩ y = some (Nat.cast lab : ℚ) ∧
      lab ∈ y ∧
      (∀ m : ℕ, y.count m ≤ y.count lab) ∧
      (∀ m : ℕ, y.count m = y.count lab → lab ≤ m)) := by
  have hlpos : 0 < y.length := List.length_pos.mpr hne
  constructor
  · have hgl : getLeafValue ⟨some d, ms, mid, true⟩ y =
        meanOpt (y.map (fun v => (Nat.cast v : ℚ))) := rfl
    have hmapne : y.map (fun v => (Nat.cast v : ℚ)) ≠ [] := by
      simp only [ne_eq, List.map_eq_nil_iff]
      exact hne
    refine ⟨(y.map (fun v => (Nat.cast v : ℚ))).sum / (y.length : ℚ), ?_, ?_⟩
    · rw [hgl, meanOpt, if_neg hmapne]
      congr 2
      simp
    · have hy0 : (y.length : ℚ) ≠ 0 := by exact_mod_cast hlpos.ne'
      field_simp
  · obtain ⟨lab, hml, hmem, hcall, hties⟩ := mostCommonLabel_spec y hne
    refine ⟨lab, ?_, hmem, hcall, hties⟩
    have hgl : getLeafValue ⟨some d, ms, mid, false⟩ y =
        (mostCommonLabel y).map (fun v => (Nat.cast v : ℚ)) := rfl
    rw [hgl, hml]
    rfl

/-- Witness for C7 on the concrete label vector `[2, 2, 3]` (mean `7/3`,
most common label `2`). -/
theorem claim_C7_witness :
    (([2, 2, 3] : List ℕ) ≠ []) ∧
    ((∃ m, getLeafValue ⟨some 4, 2, 0, true⟩ [2, 2, 3] = some m ∧
      m * (([2, 2, 3] : List ℕ).length : ℚ) =
        (([2, 2, 3] : List ℕ).map (fun v => (Nat.cast v : ℚ))).sum) ∧
    (∃ lab : ℕ, getLeafValue ⟨some 4, 2, 0, false⟩ [2, 2, 3] =
        some (Nat.cast lab : ℚ) ∧
      lab ∈ ([2, 2, 3] : List ℕ) ∧
      (∀ m : ℕ, ([2, 2, 3] : List ℕ).count m ≤ ([2, 2, 3] : List ℕ).count lab) ∧
      (∀ m : ℕ, ([2, 2, 3] : List ℕ).count m = ([2, 2, 3] : List ℕ).count lab →
        lab ≤ m))) :=
  ⟨by simp, claim_C7_leaf_value_rule 4 2 0 [2, 2, 3] (by simp)⟩

end DT

namespace RF

open DT

/-- The first-maximum position of a vote row is unique. -/
theorem isFirstMax_unique (row : List ℕ) (a b : ℕ)
    (ha : IsFirstMax row a) (hb : IsFirstMax row b) : a = b := by
  obtain ⟨halt, hamax, hafirst⟩ := ha
  obtain ⟨hblt, hbmax, hbfirst⟩ := hb
  rcases Nat.lt_trichotomy a b with h | h | h
  · have h1 := hbfirst a h
    have h2 := hbmax a halt  -- not needed; contradiction from hamax
    have h3 := hamax b hblt
    omega
  · exact h
  · have h1 := hafirst b h
    have h3 := hbmax a halt
    omega

/-- The embedded `np.argmax` satisfies the first-maximum predicate. -/
theorem isFirstMax_argmax (row : List ℕ) (hne : row ≠ []) :
    IsFirstMax row (argmaxList row) := by
  obtain ⟨h1, h2, h3⟩ := argmaxList_spec row hne
  exact ⟨h1, h2, h3⟩

theorem argmaxList_eq_iff (row : List ℕ) (hne : row ≠ []) (k : ℕ) :
    argmaxList row = k ↔ IsFirstMax row k := by
  constructor
  · rintro rfl
    exact isFirstMax_argmax row hne
  · intro hk
    exact isFirstMax_unique row (argmaxList row) k (isFirstMax_argmax row hne) hk

/-- The code's OOB score computation coincides with the specification-side
one (argmax agreement replaced by the explicit first-maximum predicate). -/
theorem votesRow_ne_nil (v : ℕ → ℕ → ℕ) (y : List ℕ) (i : ℕ) :
    votesRow v (maxLabel y + 1) i ≠ [] := by
  intro hcon
  have hlen : (votesRow v (maxLabel y + 1) i).length = maxLabel y + 1 := by
    simp [votesRow]
  rw [hcon] at hlen
  simp at hlen

theorem oob_agree_filter_eq (v : ℕ → ℕ → ℕ) (y : List ℕ) (l : List ℕ) :
    List.filter
        (fun i => decide (argmaxList (votesRow v (maxLabel y + 1) i) = y.getD i 0)) l =
      List.filter
        (fun i => decide (IsFirstMax (votesRow v (maxLabel y + 1) i) (y.getD i 0))) l := by
  apply List.filter_congr
  intro i _
  rw [decide_eq_decide]
  exact argmaxList_eq_iff _ (votesRow_ne_nil v y i) _

theorem calculateOobScore_eq_spec (v : ℕ → ℕ → ℕ) (y : List ℕ) :
    calculateOobScore v y = specOobScore v y := by
  simp only [calculateOobScore, specOobScore]
  rw [oob_agree_filter_eq]

/-- C4: after ensemble `fit` on a fresh instance, the stored OOB score
equals the accuracy — over exactly the training samples that received at
least one OOB vote across all rounds — of the per-sample label with the
most accumulated votes (ties broken by lowest label id, via the
first-maximum predicate); samples with zero votes are excluded from the
denominator, and when no sample received any vote the result is the
explicit absence `none` (no NaN, no exception). -/
theorem claim_C4_oob_score (y : List ℕ) (rs : List RoundResult) :
    (rfFit rfInit y rs).oobScore = specOobScore (rfFit rfInit y rs).votes y := by
  have hv : (rfFit rfInit y rs).oobScore =
      match calculateOobScore ((rfFit rfInit y rs).votes) y with
      | some s => some s
      | none => none := rfl
  rw [hv, calculateOobScore_eq_spec]
  cases specOobScore ((rfFit rfInit y rs).votes) y with
  | none => rfl
  | some s => rfl

end RF

namespace DT

theorem uniqueSortedQ_mem (l : List ℚ) (v : ℚ) :
    v ∈ uniqueSortedQ l ↔ v ∈ l := by
  rw [uniqueSortedQ, (List.perm_insertionSort (· ≤ ·) l.dedup).mem_iff]
  exact List.mem_dedup

theorem uniqueSortedQ_sorted (l : List ℚ) :
    List.Sorted (· ≤ ·) (uniqueSortedQ l) :=
  List.sorted_insertionSort (· ≤ ·) l.dedup

theorem uniqueSortedQ_ne_nil (l : List ℚ) (hne : l ≠ []) :
    uniqueSortedQ l ≠ [] := by
  intro hcon
  match l, hne with
  | x :: rest, _ =>
    have hx : x ∈ uniqueSortedQ (x :: rest) :=
      (uniqueSortedQ_mem (x :: rest) x).mpr (List.mem_cons_self x rest)
    rw [hcon] at hx
    exact List.not_mem_nil x hx

end DT

namespace RF

open DT

/-- Characterisation of the scipy mode on a non-empty list: a value from
the list whose multiplicity no value exceeds, and the smallest among the
equally most frequent values. -/
theorem modeQ_spec (l : List ℚ) (hne : l ≠ []) :
    modeQ l ∈ l ∧ (∀ v : ℚ, l.count v ≤ l.count (modeQ l)) ∧
      (∀ v : ℚ, l.count v = l.count (modeQ l) → modeQ l ≤ v) := by
  obtain ⟨b, l1, l2, hpick, heq, h1, h2⟩ :=
    pickFirstMax_spec (fun c => l.count c) (uniqueSortedQ l)
      (uniqueSortedQ_ne_nil l hne)
  have hmode : modeQ l = b := by
    rw [modeQ, hpick]
    rfl
  have hbus : b ∈ uniqueSortedQ l := by
    rw [heq]
    simp
  have hbmem : b ∈ l := (uniqueSortedQ_mem l b).mp hbus
  have hmax : ∀ v ∈ uniqueSortedQ l, l.count v ≤ l.count b :=
    pickFirstMax_max (fun c => l.count c) (uniqueSortedQ l) b hpick
  rw [hmode]
  refine ⟨hbmem, ?_, ?_⟩
  · intro v
    by_cases hv : v ∈ l
    · exact hmax v ((uniqueSortedQ_mem l v).mpr hv)
    · rw [List.count_eq_zero.mpr hv]
      exact Nat.zero_le _
  · intro v hveq
    have hbpos : 0 < l.count b := List.count_pos_iff.mpr hbmem
    have hvmem : v ∈ l := List.count_pos_iff.mp (by omega)
    have hvus : v ∈ uniqueSortedQ l := (uniqueSortedQ_mem l v).mpr hvmem
    rw [heq] at hvus
    rcases List.mem_append.mp hvus with hv1 | hv2
    · have := h1 v hv1
      omega
    · rcases List.mem_cons.mp hv2 with rfl | hv2
      · exact le_refl _
      · have hsorted : List.Sorted (· ≤ ·) (b :: l2) :=
          (heq ▸ uniqueSortedQ_sorted l).sublist (List.sublist_append_right l1 (b :: l2))
        exact (List.sorted_cons.mp hsorted).1 v hv2

/-- A list of `Option`s whose entries are all present maps to `some` of
the list of their values. -/
theorem mapM_some_of_forall {α β : Type} (f : α → Option β) (d : β) :
    ∀ (l : List α), (∀ a ∈ l, (f a).isSome) →
      l.mapM f = some (l.map (fun a => (f a).getD d)) := by
  intro l
  induction l with
  | nil => intro _; rfl
  | cons a rest ih =>
    intro h
    have ha : (f a).isSome := h a (List.mem_cons_self a rest)
    obtain ⟨v, hv⟩ := Option.isSome_iff_exists.mp ha
    rw [List.mapM_cons, hv, ih (fun x hx => h x (List.mem_cons_of_mem a hx))]
    simp [hv]

/-- When every tree produces a value on every row, ensemble `predict`
returns exactly the row-wise scipy mode of the per-tree predictions. -/
theorem ensemblePredict_eq (trees : List Node) (X : List (List ℚ))
    (hne : trees ≠ [])
    (hdef : ∀ t ∈ trees, ∀ row ∈ X, (traverseTree t row).isSome) :
    ensemblePredict trees X =
      some (X.map (fun row =>
        modeQ (trees.map (fun t => (traverseTree t row).getD 0)))) := by
  rw [ensemblePredict, if_neg hne]
  have hrow : ∀ row ∈ X,
      (trees.mapM (fun t => traverseTree t row)).map modeQ =
        some (modeQ (trees.map (fun t => (traverseTree t row).getD 0))) := by
    intro row hrowX
    rw [mapM_some_of_forall (fun t => traverseTree t row) 0 trees
      (fun t ht => hdef t ht row hrowX)]
    rfl
  have houter : ∀ row ∈ X,
      ((trees.mapM (fun t => traverseTree t row)).map modeQ).isSome := by
    intro row hrowX
    rw [hrow row hrowX]
    rfl
  rw [mapM_some_of_forall _ 0 X houter]
  congr 1
  apply List.map_congr_left
  intro row hrowX
  rw [hrow row hrowX]
  rfl

/-- C5: for every fitted ensemble (non-empty tree list, every tree
producing a prediction on every row), ensemble predict succeeds and
returns, for each input row in order, the mode (most frequent value) of
the per-tree predictions for that row, with ties broken by the lowest
value. -/
theorem claim_C5_ensemble_mode (trees : List Node) (X : List (List ℚ))
    (hne : trees ≠ [])
    (hdef : ∀ t ∈ trees, ∀ row ∈ X, (traverseTree t row).isSome) :
    ∃ out, ensemblePredict trees X = some out ∧ out.length = X.length ∧
      ∀ i, i < X.length →
        (out.getD i 0) ∈ (trees.map (fun t => (traverseTree t (X.getD i [])).getD 0)) ∧
        (∀ v : ℚ, (trees.map (fun t => (traverseTree t (X.getD i [])).getD 0)).count v ≤
          (trees.map (fun t => (traverseTree t (X.getD i [])).getD 0)).count (out.getD i 0)) ∧
        (∀ v : ℚ, (trees.map (fun t => (traverseTree t (X.getD i [])).getD 0)).count v =
          (trees.map (fun t => (traverseTree t (X.getD i [])).getD 0)).count (out.getD i 0) →
          out.getD i 0 ≤ v) := by
  refine ⟨_, ensemblePredict_eq trees X hne hdef, by simp, ?_⟩
  intro i hi
  have hXi : X[i]? = some X[i] := List.getElem?_eq_getElem hi
  have hXgetD : X.getD i [] = X[i] := by
    rw [List.getD_eq_getElem?_getD, hXi]
    rfl
  have hout : (X.map (fun row =>
      modeQ (trees.map (fun t => (traverseTree t row).getD 0)))).getD i 0 =
      modeQ (trees.map (fun t => (traverseTree t (X.getD i [])).getD 0)) := by
    rw [List.getD_eq_getElem?_getD, List.getElem?_map, hXi, hXgetD]
    rfl
  rw [hout]
  have hcolne : trees.map (fun t => (traverseTree t (X.getD i [])).getD 0) ≠ [] := by
    simp only [ne_eq, List.map_eq_nil_iff]
    exact hne
  exact modeQ_spec _ hcolne

/-- Witness for C5: a 3-tree ensemble predicting labels `[0, 1, 1]` for
the single sample yields ensemble output `1`. -/
theorem claim_C5_witness :
    (([Node.leaf (some 0), Node.leaf (some 1), Node.leaf (some 1)] :
        List Node) ≠ [] ∧
      (∀ t ∈ ([Node.leaf (some 0), Node.leaf (some 1), Node.leaf (some 1)] :
          List Node), ∀ row ∈ ([[5]] : List (List ℚ)),
        (traverseTree t row).isSome)) ∧
    (∃ out,
      ensemblePredict [Node.leaf (some 0), Node.leaf (some 1), Node.leaf (some 1)]
          [[5]] = some out ∧
      out.length = ([[5]] : List (List ℚ)).length ∧
      ∀ i, i < ([[5]] : List (List ℚ)).length →
        (out.getD i 0) ∈ (([Node.leaf (some 0), Node.leaf (some 1),
            Node.leaf (some 1)] : List Node).map
          (fun t => (traverseTree t (([[5]] : List (List ℚ)).getD i [])).getD 0)) ∧
        (∀ v : ℚ, (([Node.leaf (some 0), Node.leaf (some 1),
            Node.leaf (some 1)] : List Node).map
          (fun t => (traverseTree t (([[5]] : List (List ℚ)).getD i [])).getD 0)).count v ≤
          (([Node.leaf (some 0), Node.leaf (some 1),
            Node.leaf (some 1)] : List Node).map
          (fun t => (traverseTree t (([[5]] : List (List ℚ)).getD i [])).getD 0)).count
            (out.getD i 0)) ∧
        (∀ v : ℚ, (([Node.leaf (some 0), Node.leaf (some 1),
            Node.leaf (some 1)] : List Node).map
          (fun t => (traverseTree t (([[5]] : List (List ℚ)).getD i [])).getD 0)).count v =
          (([Node.leaf (some 0), Node.leaf (some 1),
            Node.leaf (some 1)] : List Node).map
          (fun t => (traverseTree t (([[5]] : List (List ℚ)).getD i [])).getD 0)).count
            (out.getD i 0) →
          out.getD i 0 ≤ v)) ∧
    ensemblePredict [Node.leaf (some 0), Node.leaf (some 1), Node.leaf (some 1)]
        [[5]] = some [1] := by
  refine ⟨⟨by simp, ?_⟩, ?_, ?_⟩
  · intro t ht row hrow
    fin_cases ht <;> rfl
  · exact claim_C5_ensemble_mode _ _ (by simp)
      (by intro t ht row hrow; fin_cases ht <;> rfl)
  · rfl

end RF

namespace RF

open DT

/-- Two single-vote increments commute. -/
theorem bump_comm (v : ℕ → ℕ → ℕ) (p q : ℕ × ℕ) :
    bump (bump v p) q = bump (bump v q) p := by
  funext i j
  simp only [bump]
  split_ifs <;> omega

theorem addVotes_bump (v : ℕ → ℕ → ℕ) (p : ℕ × ℕ) (ps : List (ℕ × ℕ)) :
    addVotes (bump v p) ps = bump (addVotes v ps) p := by
  induction ps generalizing v with
  | nil => rfl
  | cons q ps ih =>
    show addVotes (bump (bump v p) q) ps = bump (addVotes (bump v q) ps) p
    rw [bump_comm v p q, ih (bump v q)]

/-- Adding two batches of votes in either order yields the same tallies. -/
theorem addVotes_comm (v : ℕ → ℕ → ℕ) (l1 l2 : List (ℕ × ℕ)) :
    addVotes (addVotes v l1) l2 = addVotes (addVotes v l2) l1 := by
  induction l1 generalizing v with
  | nil => rfl
  | cons p l1 ih =>
    show addVotes (addVotes (bump v p) l1) l2 = addVotes (bump (addVotes v l2) p) l1
    rw [ih (bump v p), addVotes_bump]

/-- The tree component of the result-merging fold of `fit` appends the
fitted trees in fold order. -/
theorem rfFold_fst (ts : List Node) (v : ℕ → ℕ → ℕ) (rs : List RoundResult) :
    (rs.foldl
      (fun acc r => (acc.1 ++ [r.tree], addVotes acc.2 (r.oobIndices.zip r.oobPred)))
      (ts, v)).1 = ts ++ rs.map (fun r => r.tree) := by
  induction rs generalizing ts v with
  | nil => simp
  | cons r rs ih =>
    simp only [List.foldl_cons, List.map_cons]
    rw [ih (ts ++ [r.tree]) (addVotes v (r.oobIndices.zip r.oobPred))]
    simp

/-- The vote component of the result-merging fold of `fit` is the fold of
the per-round vote contributions. -/
theorem rfFold_snd (ts : List Node) (v : ℕ → ℕ → ℕ) (rs : List RoundResult) :
    (rs.foldl
      (fun acc r => (acc.1 ++ [r.tree], addVotes acc.2 (r.oobIndices.zip r.oobPred)))
      (ts, v)).2 = rs.foldl voteStep v := by
  induction rs generalizing ts v with
  | nil => rfl
  | cons r rs ih =>
    simp only [List.foldl_cons]
    exact ih (ts ++ [r.tree]) (addVotes v (r.oobIndices.zip r.oobPred))

/-- Folding the vote contributions of a permuted result list gives the
same tallies (single-vote adds commute). -/
theorem voteFold_perm (rs rs' : List RoundResult) (h : rs.Perm rs') :
    ∀ v, rs.foldl voteStep v = rs'.foldl voteStep v := by
  induction h with
  | nil => intro v; rfl
  | cons x h ih =>
    intro v
    simp only [List.foldl_cons]
    exact ih _
  | swap x y l =>
    intro v
    simp only [List.foldl_cons]
    show List.foldl voteStep (addVotes (addVotes v _) _) l =
      List.foldl voteStep (addVotes (addVotes v _) _) l
    rw [addVotes_comm]
  | trans h1 h2 ih1 ih2 =>
    intro v
    rw [ih1 v, ih2 v]

/-- C9: for a fixed multiset of per-round results, folding them into the
OOB vote accumulator in any order yields the same final vote counts for
every (sample, label) cell, while the trees list follows the fold order
(initial trees, then each round's tree in arrival order). -/
theorem claim_C9_merge_order (st : RFState) (y : List ℕ)
    (rs rs' : List RoundResult) (hperm : rs.Perm rs') :
    (rfFit st y rs).votes = (rfFit st y rs').votes ∧
    (rfFit st y rs).trees = st.trees ++ rs.map (fun r => r.tree) := by
  constructor
  · have h1 : (rfFit st y rs).votes = rs.foldl voteStep (fun _ _ => 0) :=
      rfFold_snd st.trees (fun _ _ => 0) rs
    have h2 : (rfFit st y rs').votes = rs'.foldl voteStep (fun _ _ => 0) :=
      rfFold_snd st.trees (fun _ _ => 0) rs'
    rw [h1, h2]
    exact voteFold_perm rs rs' hperm (fun _ _ => 0)
  · exact rfFold_fst st.trees (fun _ _ => 0) rs

/-- Witness for C9: two concrete round results folded in the two orders. -/
theorem claim_C9_witness :
    ([RoundResult.mk (Node.leaf none) [1] [0],
      RoundResult.mk (Node.leaf none) [0] [1]].Perm
     [RoundResult.mk (Node.leaf none) [0] [1],
      RoundResult.mk (Node.leaf none) [1] [0]]) ∧
    ((rfFit rfInit [0, 1]
        [RoundResult.mk (Node.leaf none) [1] [0],
         RoundResult.mk (Node.leaf none) [0] [1]]).votes =
      (rfFit rfInit [0, 1]
        [RoundResult.mk (Node.leaf none) [0] [1],
         RoundResult.mk (Node.leaf none) [1] [0]]).votes ∧
     (rfFit rfInit [0, 1]
        [RoundResult.mk (Node.leaf none) [1] [0],
         RoundResult.mk (Node.leaf none) [0] [1]]).trees =
      rfInit.trees ++
        [RoundResult.mk (Node.leaf none) [1] [0],
         RoundResult.mk (Node.leaf none) [0] [1]].map (fun r => r.tree)) :=
  ⟨List.Perm.swap _ _ _,
   claim_C9_merge_order rfInit [0, 1] _ _ (List.Perm.swap _ _ _)⟩

/-- C10: calling `fit` twice on the same instance appends the second
batch of trees instead of replacing the first (after k fits of n rounds
each, the instance holds k·n trees), `predict` aggregates over all of
them, and the OOB vote accumulator is re-zeroed on each `fit` call (the
final accumulator reflects only the second batch). -/
theorem claim_C10_refit_appends (st : RFState) (y1 y2 : List ℕ)
    (r1 r2 : List RoundResult) (X : List (List ℚ)) :
    (rfFit (rfFit st y1 r1) y2 r2).trees =
      st.trees ++ r1.map (fun r => r.tree) ++ r2.map (fun r => r.tree) ∧
    (rfFit (rfFit st y1 r1) y2 r2).trees.length =
      st.trees.length + r1.length + r2.length ∧
    (rfFit (rfFit st y1 r1) y2 r2).votes =
      r2.foldl voteStep (fun _ _ => 0) ∧
    rfPredict (rfFit (rfFit st y1 r1) y2 r2) X =
      ensemblePredict
        (st.trees ++ r1.map (fun r => r.tree) ++ r2.map (fun r => r.tree)) X := by
  have htrees1 : (rfFit st y1 r1).trees = st.trees ++ r1.map (fun r => r.tree) :=
    rfFold_fst st.trees (fun _ _ => 0) r1
  have htrees2 : (rfFit (rfFit st y1 r1) y2 r2).trees =
      (rfFit st y1 r1).trees ++ r2.map (fun r => r.tree) :=
    rfFold_fst (rfFit st y1 r1).trees (fun _ _ => 0) r2
  have htrees : (rfFit (rfFit st y1 r1) y2 r2).trees =
      st.trees ++ r1.map (fun r => r.tree) ++ r2.map (fun r => r.tree) := by
    rw [htrees2, htrees1]
  refine ⟨htrees, ?_, ?_, ?_⟩
  · rw [htrees]
    simp only [List.length_append, List.length_map]
  · exact rfFold_snd (rfFit st y1 r1).trees (fun _ _ => 0) r2
  · rw [rfPredict, htrees]

end RF

namespace DT

/-- A split with an empty left or right partition scores information gain
exactly 0 (lines 203-205). -/
theorem informationGain_empty_side (cfg : TreeConfig) (y : List ℕ)
    (f : List ℚ) (t : ℚ)
    (h : (split f t).1 = [] ∨ (split f t).2 = []) :
    informationGain cfg y f t = 0 := by
  simp only [informationGain]
  rw [if_pos h]

end DT

namespace DT

theorem bc_inner (cfg : TreeConfig) (D : List (List ℚ × ℕ)) (fi : ℕ) :
    ∀ (ts : List ℚ) (o : Option (ℕ × ℚ)),
      ts.foldl
        (fun best t =>
          let g := informationGain cfg (labels D) (column D fi) t
          match best with
          | none => some (fi, t, g)
          | some (bi, bt, bg) =>
              if bg < g then some (fi, t, g) else some (bi, bt, bg))
        (Option.map (fun p => (p.1, p.2, gainKey cfg D p)) o)
      = Option.map (fun p => (p.1, p.2, gainKey cfg D p))
          (ts.foldl
            (fun best t =>
              match best with
              | none => some (fi, t)
              | some b =>
                  if gainKey cfg D b < gainKey cfg D (fi, t) then some (fi, t)
                  else some b)
            o) := by
  intro ts
  induction ts with
  | nil => intro o; rfl
  | cons t ts ih =>
    intro o
    simp only [List.foldl_cons]
    cases o with
    | none =>
      exact ih (some (fi, t))
    | some b =>
      obtain ⟨bi, bt⟩ := b
      dsimp only [gainKey, Option.map_some']
      by_cases hlt : informationGain cfg (labels D) (column D bi) bt <
          informationGain cfg (labels D) (column D fi) t
      · rw [if_pos hlt, if_pos hlt]
        exact ih (some (fi, t))
      · rw [if_neg hlt, if_neg hlt]
        exact ih (some (bi, bt))

theorem bc_go (cfg : TreeConfig) (D : List (List ℚ × ℕ)) :
    ∀ (featIdxs : List ℕ) (o : Option (ℕ × ℚ)),
      featIdxs.foldl
        (fun best idx =>
          (uniqueSortedQ (column D idx)).foldl
            (fun best t =>
              let g := informationGain cfg (labels D) (column D idx) t
              match best with
              | none => some (idx, t, g)
              | some (bi, bt, bg) =>
                  if bg < g then some (idx, t, g) else some (bi, bt, bg))
            best)
        (Option.map (fun p => (p.1, p.2, gainKey cfg D p)) o)
      = Option.map (fun p => (p.1, p.2, gainKey cfg D p))
          ((candidates D featIdxs).foldl
            (fun best x =>
              match best with
              | none => some x
              | some b =>
                  if gainKey cfg D b < gainKey cfg D x then some x else some b)
            o) := by
  intro featIdxs
  induction featIdxs with
  | nil => intro o; rfl
  | cons fi rest ih =>
    intro o
    simp only [List.foldl_cons]
    rw [bc_inner cfg D fi (uniqueSortedQ (column D fi)) o]
    rw [ih]
    congr 1
    have hcand : candidates D (fi :: rest) =
        ((uniqueSortedQ (column D fi)).map (fun t => (fi, t))) ++ candidates D rest := by
      simp only [candidates, List.flatMap_cons]
    rw [hcand, List.foldl_append, List.foldl_map]

/-- The nested strictly-greater fold of `_best_criteria` is the
first-strict-maximum scan of the flattened candidate list, with the gain
of the selected pair attached. -/
theorem bestCriteria_eq_pick (cfg : TreeConfig) (D : List (List ℚ × ℕ))
    (featIdxs : List ℕ) :
    bestCriteria cfg D featIdxs =
      Option.map (fun p => (p.1, p.2, gainKey cfg D p))
        (pickFirstMax (gainKey cfg D) (candidates D featIdxs)) := by
  have h := bc_go cfg D featIdxs none
  rw [Option.map_none'] at h
  have hps : pickFirstMax (gainKey cfg D) (candidates D featIdxs) =
      (candidates D featIdxs).foldl
        (fun best x =>
          match best with
          | none => some x
          | some b =>
              if gainKey cfg D b < gainKey cfg D x then some x else some b)
        none := by
    unfold pickFirstMax
    congr 1
    funext best x
    cases best with
    | none => rfl
    | some b =>
      by_cases hlt : gainKey cfg D b < gainKey cfg D x
      · simp [hlt]
      · simp [hlt]
  rw [hps]
  exact h

end DT

namespace DT

/-- C3 (amended): information gain is exactly 0 for every split with an
empty left or right partition; and whenever at least one candidate
(feature, threshold) pair — a feature in the considered list together
with a unique value of its column — has strictly positive information
gain, the pair returned by `_best_criteria` induces two non-empty
partitions.  (When every candidate, degenerate or not, ties at gain 0,
the first-seen candidate wins even if degenerate; see the
counterexample.) -/
theorem claim_C3_empty_gain_and_selection (cfg : TreeConfig)
    (D : List (List ℚ × ℕ)) (featIdxs : List ℕ) :
    (∀ (y : List ℕ) (f : List ℚ) (t : ℚ),
        ((split f t).1 = [] ∨ (split f t).2 = []) →
        informationGain cfg y f t = 0) ∧
    (∀ fi t, fi ∈ featIdxs → t ∈ uniqueSortedQ (column D fi) →
      0 < informationGain cfg (labels D) (column D fi) t →
      ∃ bf bt bg, bestCriteria cfg D featIdxs = some (bf, bt, bg) ∧
        (split (column D bf) bt).1 ≠ [] ∧ (split (column D bf) bt).2 ≠ []) := by
  refine ⟨fun y f t h => informationGain_empty_side cfg y f t h, ?_⟩
  intro fi t hfi ht hpos
  have hCand : (fi, t) ∈ candidates D featIdxs := by
    simp only [candidates, List.mem_flatMap]
    exact ⟨fi, hfi, List.mem_map.mpr ⟨t, ht, rfl⟩⟩
  have hcne : candidates D featIdxs ≠ [] := List.ne_nil_of_mem hCand
  obtain ⟨b, l1, l2, hpick, heq, h1, h2⟩ :=
    pickFirstMax_spec (gainKey cfg D) (candidates D featIdxs) hcne
  have hmax := pickFirstMax_max (gainKey cfg D) (candidates D featIdxs) b hpick
  have hbpos : 0 < gainKey cfg D b :=
    lt_of_lt_of_le hpos (hmax (fi, t) hCand)
  refine ⟨b.1, b.2, gainKey cfg D b, ?_, ?_, ?_⟩
  · rw [bestCriteria_eq_pick, hpick]
    rfl
  · intro hcon
    have hz : gainKey cfg D b = 0 :=
      informationGain_empty_side cfg (labels D) (column D b.1) b.2 (Or.inl hcon)
    rw [hz] at hbpos
    exact lt_irrefl 0 hbpos
  · intro hcon
    have hz : gainKey cfg D b = 0 :=
      informationGain_empty_side cfg (labels D) (column D b.1) b.2 (Or.inr hcon)
    rw [hz] at hbpos
    exact lt_irrefl 0 hbpos

end DT

namespace DT

theorem logb_half : Real.logb 2 ((1 : ℝ)/2) = -1 := by
  have h : ((1 : ℝ)/2) = (2 : ℝ)⁻¹ := by norm_num
  rw [h, Real.logb_inv, Real.logb_self_eq_one (by norm_num)]

theorem entropy_0011 : entropy [0, 0, 1, 1] = 1 := by
  have hu : uniqueSortedN [0, 0, 1, 1] = [0, 1] := by decide
  rw [entropy, hu]
  have hc0 : ([0, 0, 1, 1] : List ℕ).count 0 = 2 := by decide
  have hc1 : ([0, 0, 1, 1] : List ℕ).count 1 = 2 := by decide
  have hlen : ([0, 0, 1, 1] : List ℕ).length = 4 := by decide
  simp only [List.map_cons, List.map_nil, List.sum_cons, List.sum_nil, hc0, hc1, hlen]
  push_cast
  have h24 : ((2 : ℝ)/4) = (1 : ℝ)/2 := by norm_num
  rw [h24, logb_half]
  ring

theorem entropy_00 : entropy [0, 0] = 0 := by
  have hu : uniqueSortedN [0, 0] = [0] := by decide
  rw [entropy, hu]
  have hc0 : ([0, 0] : List ℕ).count 0 = 2 := by decide
  have hlen : ([0, 0] : List ℕ).length = 2 := by decide
  simp only [List.map_cons, List.map_nil, List.sum_cons, List.sum_nil, hc0, hlen]
  push_cast
  have h22 : ((2 : ℝ)/2) = 1 := by norm_num
  rw [h22, Real.logb_one]
  ring

theorem entropy_11 : entropy [1, 1] = 0 := by
  have hu : uniqueSortedN [1, 1] = [1] := by decide
  rw [entropy, hu]
  have hc1 : ([1, 1] : List ℕ).count 1 = 2 := by decide
  have hlen : ([1, 1] : List ℕ).length = 2 := by decide
  simp only [List.map_cons, List.map_nil, List.sum_cons, List.sum_nil, hc1, hlen]
  push_cast
  have h22 : ((2 : ℝ)/2) = 1 := by norm_num
  rw [h22, Real.logb_one]
  ring

theorem entropy_0101 : entropy [0, 1, 0, 1] = -Real.logb 2 ((1 : ℝ)/2) := by
  have hu : uniqueSortedN [0, 1, 0, 1] = [0, 1] := by decide
  rw [entropy, hu]
  have hc0 : ([0, 1, 0, 1] : List ℕ).count 0 = 2 := by decide
  have hc1 : ([0, 1, 0, 1] : List ℕ).count 1 = 2 := by decide
  have hlen : ([0, 1, 0, 1] : List ℕ).length = 4 := by decide
  simp only [List.map_cons, List.map_nil, List.sum_cons, List.sum_nil, hc0, hc1, hlen]
  push_cast
  have h24 : ((2 : ℝ)/4) = (1 : ℝ)/2 := by norm_num
  rw [h24]
  ring

theorem entropy_01 : entropy [0, 1] = -Real.logb 2 ((1 : ℝ)/2) := by
  have hu : uniqueSortedN [0, 1] = [0, 1] := by decide
  rw [entropy, hu]
  have hc0 : ([0, 1] : List ℕ).count 0 = 1 := by decide
  have hc1 : ([0, 1] : List ℕ).count 1 = 1 := by decide
  have hlen : ([0, 1] : List ℕ).length = 2 := by decide
  simp only [List.map_cons, List.map_nil, List.sum_cons, List.sum_nil, hc0, hc1, hlen]
  push_cast
  ring

/-- A perfectly separating threshold on `y = [0,0,1,1]` has gain 1. -/
theorem gain_pure_children :
    informationGain ⟨some 10, 2, 0, false⟩ [0, 0, 1, 1] [0, 1, 2, 3] 1 = 1 := by
  have hsplit : split ([0, 1, 2, 3] : List ℚ) 1 = ([0, 1], [2, 3]) := by decide
  have hyl : ([0, 1] : List ℕ).map (fun i => ([0, 0, 1, 1] : List ℕ).getD i 0) = [0, 0] := by
    decide
  have hyr : ([2, 3] : List ℕ).map (fun i => ([0, 0, 1, 1] : List ℕ).getD i 0) = [1, 1] := by
    decide
  simp only [informationGain, hsplit]
  norm_num [hyl, hyr, entropy_0011, entropy_00, entropy_11]
  constructor <;> simp

theorem gain_ce_A :
    informationGain ⟨some 10, 2, 0, false⟩ [0, 1, 0, 1] [7, 7, 7, 7] 7 = 0 :=
  informationGain_empty_side _ _ _ _ (Or.inr (by decide))

theorem gain_ce_C :
    informationGain ⟨some 10, 2, 0, false⟩ [0, 1, 0, 1] [0, 0, 1, 1] 1 = 0 :=
  informationGain_empty_side _ _ _ _ (Or.inr (by decide))

/-- The distribution-preserving split of `y = [0,1,0,1]` by the column
`[0,0,1,1]` at threshold 0 has gain exactly 0. -/
theorem gain_ce_B :
    informationGain ⟨some 10, 2, 0, false⟩ [0, 1, 0, 1] [0, 0, 1, 1] 0 = 0 := by
  have hsplit : split ([0, 0, 1, 1] : List ℚ) 0 = ([0, 1], [2, 3]) := by decide
  have hyl : ([0, 1] : List ℕ).map (fun i => ([0, 1, 0, 1] : List ℕ).getD i 0) = [0, 1] := by
    decide
  have hyr : ([2, 3] : List ℕ).map (fun i => ([0, 1, 0, 1] : List ℕ).getD i 0) = [0, 1] := by
    decide
  simp only [informationGain, hsplit]
  norm_num [hyl, hyr, entropy_0101, entropy_01]
  intro _ _
  ring

/-- Concrete evaluation of `_best_criteria` on the dataset
`X = [[7,0],[7,0],[7,1],[7,1]]`, `y = [0,1,0,1]`: feature 0 is constant,
its only candidate (0, 7) is degenerate with gain 0; it is seen first and
every later candidate also has gain 0, so it wins. -/
theorem bc_ce : bestCriteria ⟨some 10, 2, 0, false⟩
    [([7, 0], 0), ([7, 0], 1), ([7, 1], 0), ([7, 1], 1)] [0, 1] =
    some (0, 7, 0) := by
  have hlab : labels [([7, 0], 0), ([7, 0], 1), ([7, 1], 0), ([7, 1], 1)] =
      [0, 1, 0, 1] := by decide
  have hcol0 : column [([7, 0], 0), ([7, 0], 1), ([7, 1], 0), ([7, 1], 1)] 0 =
      [7, 7, 7, 7] := by decide
  have hcol1 : column [([7, 0], 0), ([7, 0], 1), ([7, 1], 0), ([7, 1], 1)] 1 =
      [0, 0, 1, 1] := by decide
  have hu0 : uniqueSortedQ [7, 7, 7, 7] = [7] := by decide
  have hu1 : uniqueSortedQ [0, 0, 1, 1] = [0, 1] := by decide
  simp only [bestCriteria, hlab, hcol0, hcol1, hu0, hu1, List.foldl_cons,
    List.foldl_nil, gain_ce_A, gain_ce_B, gain_ce_C]
  norm_num

/-- Counterexample for C3 as stated: on `X = [[7,0],[7,0],[7,1],[7,1]]`,
`y = [0,1,0,1]` with all features considered, `_best_criteria` returns
the degenerate candidate (feature 0, threshold 7) — whose right partition
is empty — even though the candidate (feature 1, threshold 0) induces two
non-empty partitions. -/
theorem claim_C3_counterexample :
    bestCriteria ⟨some 10, 2, 0, false⟩
        [([7, 0], 0), ([7, 0], 1), ([7, 1], 0), ([7, 1], 1)] [0, 1] =
      some (0, 7, 0) ∧
    (split (column [([7, 0], 0), ([7, 0], 1), ([7, 1], 0), ([7, 1], 1)] 0) 7).2 = [] ∧
    (1 : ℕ) ∈ ([0, 1] : List ℕ) ∧
    (0 : ℚ) ∈ uniqueSortedQ (column [([7, 0], 0), ([7, 0], 1), ([7, 1], 0), ([7, 1], 1)] 1) ∧
    (split (column [([7, 0], 0), ([7, 0], 1), ([7, 1], 0), ([7, 1], 1)] 1) 0).1 ≠ [] ∧
    (split (column [([7, 0], 0), ([7, 0], 1), ([7, 1], 0), ([7, 1], 1)] 1) 0).2 ≠ [] :=
  ⟨bc_ce, by decide, by decide, by decide, by decide, by decide⟩

/-- Witness for the amended C3 at a dataset with a strictly positive
candidate gain. -/
theorem claim_C3_witness :
    ((0 : ℕ) ∈ ([0] : List ℕ) ∧
     (1 : ℚ) ∈ uniqueSortedQ
        (column [([0], 0), ([1], 0), ([2], 1), ([3], 1)] 0) ∧
     0 < informationGain ⟨some 10, 2, 0, false⟩
        (labels [([0], 0), ([1], 0), ([2], 1), ([3], 1)])
        (column [([0], 0), ([1], 0), ([2], 1), ([3], 1)] 0) 1) ∧
    (∃ bf bt bg,
      bestCriteria ⟨some 10, 2, 0, false⟩
          [([0], 0), ([1], 0), ([2], 1), ([3], 1)] [0] = some (bf, bt, bg) ∧
      (split (column [([0], 0), ([1], 0), ([2], 1), ([3], 1)] bf) bt).1 ≠ [] ∧
      (split (column [([0], 0), ([1], 0), ([2], 1), ([3], 1)] bf) bt).2 ≠ []) := by
  have h1 : (0 : ℕ) ∈ ([0] : List ℕ) := by decide
  have h2 : (1 : ℚ) ∈ uniqueSortedQ
      (column [([0], 0), ([1], 0), ([2], 1), ([3], 1)] 0) := by decide
  have h3 : (0 : ℝ) < informationGain ⟨some 10, 2, 0, false⟩
      (labels [([0], 0), ([1], 0), ([2], 1), ([3], 1)])
      (column [([0], 0), ([1], 0), ([2], 1), ([3], 1)] 0) 1 := by
    have hl : labels [([0], 0), ([1], 0), ([2], 1), ([3], 1)] = [0, 0, 1, 1] := by decide
    have hc : column [([0], 0), ([1], 0), ([2], 1), ([3], 1)] 0 = [0, 1, 2, 3] := by decide
    rw [hl, hc, gain_pure_children]
    norm_num
  exact ⟨⟨h1, h2, h3⟩,
    (claim_C3_empty_gain_and_selection ⟨some 10, 2, 0, false⟩
      [([0], 0), ([1], 0), ([2], 1), ([3], 1)] [0]).2 0 1 h1 h2 h3⟩

end DT
